import Mathlib

/-!
A verification development for the metrics aggregation and reporting subsystem
in `crates/freeze/src/types/metrics.rs`.

The Rust code is shallowly embedded: the asynchronous mpsc channel is modelled
by the list of datapoints the aggregator receives, in arrival order; the
`HashMap` accumulated by `metrics_aggregator` is modelled by an association
list updated with the `entry(..).or_insert_with(Vec::new).push(..)` semantics
(`pushDatapoint`), and its observable value is the partial map obtained through
`lookupMethod`.  Machine integers (`u64` response sizes, `u128` durations) are
modelled as `Nat` with additions reduced modulo `2 ^ 64` / `2 ^ 128` exactly
where the source adds machine integers (release-profile wrap-around
semantics).
-/

/-- Modulus of `u64` arithmetic. -/
def U64MOD : Nat := 2 ^ 64

/-- Modulus of `u128` arithmetic. -/
def U128MOD : Nat := 2 ^ 128

/-- Metric datapoint (struct `MetricsData`): method name, duration in
nanoseconds (`u128`), response size in bytes (`u64`). -/
structure MetricsData where
  method_name : String
  duration : Nat
  response_size : Nat
deriving DecidableEq

/-- Metrics report over a specific RPC method (struct `MetricsReport`). -/
structure MetricsReport where
  max_size : Nat
  min_size : Nat
  max_time : Nat
  min_time : Nat
  avg_size : Nat
  avg_time : Nat
  total_duration : Nat
  total_size : Nat
deriving DecidableEq

/-- One step of the receive loop:
`metrics.entry(method_name).or_insert_with(Vec::new).push((response_size, duration))`.
If the method already has an entry its record vector is extended at the end,
otherwise a fresh singleton entry is appended. -/
def pushDatapoint (m : List (String × List (Nat × Nat))) (d : MetricsData) :
    List (String × List (Nat × Nat)) :=
  match m with
  | [] => [(d.method_name, [(d.response_size, d.duration)])]
  | (k, v) :: rest =>
    if k = d.method_name then (k, v ++ [(d.response_size, d.duration)]) :: rest
    else (k, v) :: pushDatapoint rest d

/-- The `while let Some(..) = receiver.recv().await` loop of
`metrics_aggregator`, over the list of datapoints received. -/
def groupByMethod (l : List MetricsData) : List (String × List (Nat × Nat)) :=
  l.foldl pushDatapoint []

/-- `sizes.iter().fold((0, u64::MAX, 0), |(max, min, total), &size|
(max.max(size), min.min(size), total + size))`, the `u64` addition wrapping. -/
def sizeFold (sizes : List Nat) : Nat × Nat × Nat :=
  sizes.foldl
    (fun acc size => (max acc.1 size, min acc.2.1 size, (acc.2.2 + size) % U64MOD))
    (0, U64MOD - 1, 0)

/-- `times.iter().fold((0, u128::MAX, 0), |(max, min, total), &time|
(max.max(time), min.min(time), total + time))`, the `u128` addition wrapping. -/
def timeFold (times : List Nat) : Nat × Nat × Nat :=
  times.foldl
    (fun acc time => (max acc.1 time, min acc.2.1 time, (acc.2.2 + time) % U128MOD))
    (0, U128MOD - 1, 0)

/-- `sizes.iter().sum::<u64>()`, the `u64` additions wrapping. -/
def sumU64 (sizes : List Nat) : Nat :=
  sizes.foldl (fun t s => (t + s) % U64MOD) 0

/-- The per-method body of the `map` in `metrics_aggregator`: unzip the
records into sizes and times, fold max/min/total, and compute the averages
with the defensive empty-vector branch yielding `0`. -/
def reportOfRecords (records : List (Nat × Nat)) : MetricsReport :=
  let sizes := records.map Prod.fst
  let times := records.map Prod.snd
  let sf := sizeFold sizes
  let tf := timeFold times
  { max_size := sf.1
    min_size := sf.2.1
    max_time := tf.1
    min_time := tf.2.1
    avg_size := if !sizes.isEmpty then sumU64 sizes / sizes.length else 0
    avg_time := if !times.isEmpty then tf.2.2 / times.length else 0
    total_duration := tf.2.2
    total_size := sf.2.2 }

/-- `metrics_aggregator`: drain the channel (the input list), then map every
per-method record vector to its `MetricsReport`. -/
def metrics_aggregator (l : List MetricsData) : List (String × MetricsReport) :=
  (groupByMethod l).map (fun p => (p.1, reportOfRecords p.2))

/-- Observable lookup in the association list modelling the `HashMap`. -/
def lookupMethod {α : Type} (m : String) : List (String × α) → Option α
  | [] => none
  | (k, v) :: rest => if k = m then some v else lookupMethod m rest

/-- The records `(response_size, duration)` carried by the datapoints of
method `m`, in arrival order. -/
def methodRecords (l : List MetricsData) (m : String) : List (Nat × Nat) :=
  (l.filter (fun d => decide (d.method_name = m))).map
    (fun d => (d.response_size, d.duration))

/-- The response sizes observed for method `m`, in arrival order. -/
def methodSizes (l : List MetricsData) (m : String) : List Nat :=
  (methodRecords l m).map Prod.fst

/-- The durations observed for method `m`, in arrival order. -/
def methodTimes (l : List MetricsData) (m : String) : List Nat :=
  (methodRecords l m).map Prod.snd

/-- Well-formed stream: every datapoint carries a `u64` response size and a
`u128` duration, as the Rust field types guarantee. -/
def WFStream (l : List MetricsData) : Prop :=
  ∀ d ∈ l, d.response_size < U64MOD ∧ d.duration < U128MOD

instance (l : List MetricsData) : Decidable (WFStream l) :=
  List.decidableBAll
    (fun (d : MetricsData) => d.response_size < U64MOD ∧ d.duration < U128MOD) l

/-! ### Fold lemmas -/

theorem init_le_foldl_max (l : List Nat) : ∀ a : Nat, a ≤ l.foldl max a := by
  induction l with
  | nil => intro a; exact Nat.le_refl a
  | cons s t ih =>
    intro a
    exact Nat.le_trans (Nat.le_max_left a s) (ih (max a s))

theorem mem_le_foldl_max (l : List Nat) : ∀ (a : Nat), ∀ x ∈ l, x ≤ l.foldl max a := by
  induction l with
  | nil => intro a x hx; cases hx
  | cons s t ih =>
    intro a x hx
    rcases List.mem_cons.mp hx with h | h
    · subst h
      exact Nat.le_trans (Nat.le_max_right a x) (init_le_foldl_max t (max a x))
    · exact ih (max a s) x h

theorem foldl_max_mem (l : List Nat) : ∀ a : Nat, l.foldl max a = a ∨ l.foldl max a ∈ l := by
  induction l with
  | nil => intro a; exact Or.inl rfl
  | cons s t ih =>
    intro a
    rcases ih (max a s) with h | h
    · rcases Nat.le_total s a with hc | hc
      · exact Or.inl (by simpa [max_eq_left hc] using h)
      · refine Or.inr ?_
        have h' : (s :: t).foldl max a = s := by
          simpa [max_eq_right hc] using h
        rw [h']
        exact List.mem_cons_self s t
    · exact Or.inr (List.mem_cons_of_mem s h)

theorem foldl_max_zero_mem {l : List Nat} (h : l ≠ []) : l.foldl max 0 ∈ l := by
  rcases foldl_max_mem l 0 with h0 | hm
  · cases l with
    | nil => exact absurd rfl h
    | cons s t =>
      have hs : s ≤ (s :: t).foldl max 0 :=
        mem_le_foldl_max (s :: t) 0 s (List.mem_cons_self s t)
      rw [h0] at hs
      have hz : s = 0 := Nat.le_zero.mp hs
      rw [h0, ← hz]
      exact List.mem_cons_self s t
  · exact hm

theorem foldl_min_le_init (l : List Nat) : ∀ a : Nat, l.foldl min a ≤ a := by
  induction l with
  | nil => intro a; exact Nat.le_refl a
  | cons s t ih =>
    intro a
    exact Nat.le_trans (ih (min a s)) (Nat.min_le_left a s)

theorem foldl_min_le_mem (l : List Nat) : ∀ (a : Nat), ∀ x ∈ l, l.foldl min a ≤ x := by
  induction l with
  | nil => intro a x hx; cases hx
  | cons s t ih =>
    intro a x hx
    rcases List.mem_cons.mp hx with h | h
    · subst h
      exact Nat.le_trans (foldl_min_le_init t (min a x)) (Nat.min_le_right a x)
    · exact ih (min a s) x h

theorem foldl_min_mem (l : List Nat) : ∀ a : Nat, l.foldl min a = a ∨ l.foldl min a ∈ l := by
  induction l with
  | nil => intro a; exact Or.inl rfl
  | cons s t ih =>
    intro a
    rcases ih (min a s) with h | h
    · rcases Nat.le_total a s with hc | hc
      · exact Or.inl (by simpa [min_eq_left hc] using h)
      · refine Or.inr ?_
        have h' : (s :: t).foldl min a = s := by
          simpa [min_eq_right hc] using h
        rw [h']
        exact List.mem_cons_self s t
    · exact Or.inr (List.mem_cons_of_mem s h)

theorem foldl_min_seed_mem {l : List Nat} {a : Nat} (h : l ≠ [])
    (hb : ∀ x ∈ l, x ≤ a) : l.foldl min a ∈ l := by
  rcases foldl_min_mem l a with h0 | hm
  · cases l with
    | nil => exact absurd rfl h
    | cons s t =>
      have hs : (s :: t).foldl min a ≤ s :=
        foldl_min_le_mem (s :: t) a s (List.mem_cons_self s t)
      rw [h0] at hs
      have hsa : s = a := Nat.le_antisymm (hb s (List.mem_cons_self s t)) hs
      rw [h0, ← hsa]
      exact List.mem_cons_self s t
  · exact hm

theorem sum_le_length_mul (l : List Nat) (n : Nat) (h : ∀ x ∈ l, x ≤ n) :
    l.sum ≤ l.length * n := by
  induction l with
  | nil => simp
  | cons s t ih =>
    have h1 : s ≤ n := h s (List.mem_cons_self s t)
    have h2 : t.sum ≤ t.length * n := ih (fun x hx => h x (List.mem_cons_of_mem s hx))
    simp only [List.sum_cons, List.length_cons, Nat.succ_mul]
    omega

theorem length_mul_le_sum (l : List Nat) (n : Nat) (h : ∀ x ∈ l, n ≤ x) :
    l.length * n ≤ l.sum := by
  induction l with
  | nil => simp
  | cons s t ih =>
    have h1 : n ≤ s := h s (List.mem_cons_self s t)
    have h2 : t.length * n ≤ t.sum := ih (fun x hx => h x (List.mem_cons_of_mem s hx))
    simp only [List.sum_cons, List.length_cons, Nat.succ_mul]
    omega

theorem foldl_addmod (M : Nat) (l : List Nat) :
    ∀ c : Nat, c < M → l.foldl (fun t s => (t + s) % M) c = (c + l.sum) % M := by
  induction l with
  | nil =>
    intro c hc
    simp [Nat.mod_eq_of_lt hc]
  | cons s t ih =>
    intro c hc
    have hM : 0 < M := Nat.lt_of_le_of_lt (Nat.zero_le c) hc
    simp only [List.foldl_cons, List.sum_cons]
    rw [ih ((c + s) % M) (Nat.mod_lt _ hM), Nat.mod_add_mod, Nat.add_assoc]

theorem foldl_maxminsum (M : Nat) (l : List Nat) :
    ∀ (a b c : Nat), c < M →
      l.foldl (fun acc s => (max acc.1 s, min acc.2.1 s, (acc.2.2 + s) % M)) (a, b, c)
        = (l.foldl max a, l.foldl min b, (c + l.sum) % M) := by
  induction l with
  | nil =>
    intro a b c hc
    simp [Nat.mod_eq_of_lt hc]
  | cons s t ih =>
    intro a b c hc
    have hM : 0 < M := Nat.lt_of_le_of_lt (Nat.zero_le c) hc
    simp only [List.foldl_cons, List.sum_cons]
    refine Eq.trans (ih (max a s) (min b s) ((c + s) % M) (Nat.mod_lt _ hM)) ?_
    rw [Nat.mod_add_mod, Nat.add_assoc]

theorem sizeFold_eq (sizes : List Nat) :
    sizeFold sizes
      = (sizes.foldl max 0, sizes.foldl min (U64MOD - 1), sizes.sum % U64MOD) := by
  have h := foldl_maxminsum U64MOD sizes 0 (U64MOD - 1) 0 (by norm_num [U64MOD])
  simpa [sizeFold] using h

theorem timeFold_eq (times : List Nat) :
    timeFold times
      = (times.foldl max 0, times.foldl min (U128MOD - 1), times.sum % U128MOD) := by
  have h := foldl_maxminsum U128MOD times 0 (U128MOD - 1) 0 (by norm_num [U128MOD])
  simpa [timeFold] using h

theorem sumU64_eq (sizes : List Nat) : sumU64 sizes = sizes.sum % U64MOD := by
  have h := foldl_addmod U64MOD sizes 0 (by norm_num [U64MOD])
  simpa [sumU64] using h

theorem isEmpty_map {α β : Type} (f : α → β) (l : List α) :
    (l.map f).isEmpty = l.isEmpty := by
  cases l <;> simp

theorem reportOfRecords_eq (records : List (Nat × Nat)) :
    reportOfRecords records =
      { max_size := (records.map Prod.fst).foldl max 0
        min_size := (records.map Prod.fst).foldl min (U64MOD - 1)
        max_time := (records.map Prod.snd).foldl max 0
        min_time := (records.map Prod.snd).foldl min (U128MOD - 1)
        avg_size := if records.isEmpty then 0
          else ((records.map Prod.fst).sum % U64MOD) / records.length
        avg_time := if records.isEmpty then 0
          else ((records.map Prod.snd).sum % U128MOD) / records.length
        total_duration := (records.map Prod.snd).sum % U128MOD
        total_size := (records.map Prod.fst).sum % U64MOD } := by
  simp only [reportOfRecords, sizeFold_eq, timeFold_eq, sumU64_eq, List.length_map,
    isEmpty_map]
  cases h : records.isEmpty <;> simp [h]

/-! ### Characterizing the aggregator map by the input stream -/

/-- Extend the optional record vector of a method by newly observed records:
`none` stands for a method with no entry yet. -/
def optAppend {α : Type} (o : Option (List α)) (rs : List α) : Option (List α) :=
  match o with
  | none => if rs.isEmpty then none else some rs
  | some v => some (v ++ rs)

theorem optAppend_nil {α : Type} (o : Option (List α)) : optAppend o [] = o := by
  cases o <;> simp [optAppend]

theorem optAppend_optAppend {α : Type} (o : Option (List α)) (ys zs : List α) :
    optAppend (optAppend o ys) zs = optAppend o (ys ++ zs) := by
  cases o with
  | some v => simp [optAppend]
  | none =>
    cases ys with
    | nil => simp [optAppend]
    | cons y ys => simp [optAppend]

theorem lookupMethod_pushDatapoint (acc : List (String × List (Nat × Nat)))
    (d : MetricsData) (m : String) :
    lookupMethod m (pushDatapoint acc d)
      = if d.method_name = m
        then optAppend (lookupMethod m acc) [(d.response_size, d.duration)]
        else lookupMethod m acc := by
  induction acc with
  | nil =>
    by_cases h : d.method_name = m <;>
      simp [pushDatapoint, lookupMethod, optAppend, h]
  | cons p rest ih =>
    obtain ⟨k, v⟩ := p
    by_cases hk : k = d.method_name
    · by_cases hm : k = m
      · have hdm : d.method_name = m := by rw [← hk]; exact hm
        simp [pushDatapoint, lookupMethod, optAppend, hk, hm, hdm]
      · have hdm : ¬ d.method_name = m := by rw [← hk]; exact hm
        simp [pushDatapoint, lookupMethod, optAppend, hk, hm, hdm]
    · by_cases hm : k = m
      · have hdm : ¬ d.method_name = m := fun he => hk (hm.trans he.symm)
        have hk' : ¬ m = d.method_name := fun he => hk (hm.trans he)
        simp [pushDatapoint, lookupMethod, hk, hm, hdm, hk']
      · simp [pushDatapoint, lookupMethod, hk, hm, ih]

theorem lookupMethod_foldl_pushDatapoint (l : List MetricsData) :
    ∀ (acc : List (String × List (Nat × Nat))) (m : String),
      lookupMethod m (l.foldl pushDatapoint acc)
        = optAppend (lookupMethod m acc) (methodRecords l m) := by
  induction l with
  | nil =>
    intro acc m
    simp [methodRecords, optAppend_nil]
  | cons d t ih =>
    intro acc m
    simp only [List.foldl_cons]
    rw [ih (pushDatapoint acc d) m, lookupMethod_pushDatapoint]
    by_cases h : d.method_name = m
    · rw [if_pos h, optAppend_optAppend]
      congr 1
      simp [methodRecords, List.filter_cons, h]
    · rw [if_neg h]
      congr 1
      simp [methodRecords, List.filter_cons, h]

theorem lookupMethod_groupByMethod (l : List MetricsData) (m : String) :
    lookupMethod m (groupByMethod l)
      = if (methodRecords l m).isEmpty then none else some (methodRecords l m) := by
  have h := lookupMethod_foldl_pushDatapoint l [] m
  simpa [groupByMethod, lookupMethod, optAppend] using h

theorem lookupMethod_map {α β : Type} (f : α → β) (xs : List (String × α)) (m : String) :
    lookupMethod m (xs.map (fun p => (p.1, f p.2))) = (lookupMethod m xs).map f := by
  induction xs with
  | nil => rfl
  | cons p rest ih =>
    obtain ⟨k, v⟩ := p
    by_cases h : k = m <;> simp [lookupMethod, h, ih]

theorem lookupMethod_metrics_aggregator (l : List MetricsData) (m : String) :
    lookupMethod m (metrics_aggregator l)
      = if (methodRecords l m).isEmpty then none
        else some (reportOfRecords (methodRecords l m)) := by
  unfold metrics_aggregator
  rw [lookupMethod_map, lookupMethod_groupByMethod]
  by_cases h : (methodRecords l m).isEmpty <;> simp [h]

/-! ### Key set and value shape of the accumulated map -/

theorem keys_pushDatapoint (acc : List (String × List (Nat × Nat))) (d : MetricsData) :
    (pushDatapoint acc d).map Prod.fst
      = if d.method_name ∈ acc.map Prod.fst then acc.map Prod.fst
        else acc.map Prod.fst ++ [d.method_name] := by
  induction acc with
  | nil => simp [pushDatapoint]
  | cons p rest ih =>
    obtain ⟨k, v⟩ := p
    by_cases hk : k = d.method_name
    · simp [pushDatapoint, hk, List.mem_cons]
    · have hk' : ¬ d.method_name = k := fun he => hk he.symm
      by_cases hm : d.method_name ∈ rest.map Prod.fst <;>
        simp [pushDatapoint, hk, hk', hm, ih, List.mem_cons]

theorem nodup_keys_foldl_pushDatapoint (l : List MetricsData) :
    ∀ acc : List (String × List (Nat × Nat)),
      (acc.map Prod.fst).Nodup → ((l.foldl pushDatapoint acc).map Prod.fst).Nodup := by
  induction l with
  | nil => intro acc h; simpa using h
  | cons d t ih =>
    intro acc h
    simp only [List.foldl_cons]
    apply ih
    rw [keys_pushDatapoint]
    by_cases hm : d.method_name ∈ acc.map Prod.fst
    · simpa [hm] using h
    · rw [if_neg hm]
      simp only [List.nodup_append, List.nodup_cons, List.not_mem_nil, not_false_iff,
        List.nodup_nil, and_true, true_and]
      refine ⟨h, ?_⟩
      intro a ha hb
      simp only [List.mem_singleton] at hb
      exact hm (hb ▸ ha)

theorem nodup_keys_groupByMethod (l : List MetricsData) :
    ((groupByMethod l).map Prod.fst).Nodup :=
  nodup_keys_foldl_pushDatapoint l [] (by simp)

theorem values_pushDatapoint_ne_nil (acc : List (String × List (Nat × Nat))) (d : MetricsData) :
    (∀ q ∈ acc, q.2 ≠ ([] : List (Nat × Nat))) →
      ∀ q ∈ pushDatapoint acc d, q.2 ≠ [] := by
  induction acc with
  | nil =>
    intro _ q hq
    simp only [pushDatapoint, List.mem_singleton] at hq
    subst hq
    simp
  | cons p rest ih =>
    obtain ⟨k, v⟩ := p
    intro h q hq
    by_cases hk : k = d.method_name
    · simp only [pushDatapoint, if_pos hk, List.mem_cons] at hq
      rcases hq with hq | hq
      · subst hq; simp
      · exact h q (List.mem_cons_of_mem _ hq)
    · simp only [pushDatapoint, if_neg hk, List.mem_cons] at hq
      rcases hq with hq | hq
      · subst hq
        exact h (k, v) (List.mem_cons_self _ _)
      · exact ih (fun r hr => h r (List.mem_cons_of_mem _ hr)) q hq

theorem values_foldl_pushDatapoint_ne_nil (l : List MetricsData) :
    ∀ acc : List (String × List (Nat × Nat)),
      (∀ q ∈ acc, q.2 ≠ ([] : List (Nat × Nat))) →
        ∀ q ∈ l.foldl pushDatapoint acc, q.2 ≠ [] := by
  induction l with
  | nil => intro acc h; simpa using h
  | cons d t ih =>
    intro acc h
    simp only [List.foldl_cons]
    exact ih (pushDatapoint acc d) (values_pushDatapoint_ne_nil acc d h)

theorem groupByMethod_values_ne_nil (l : List MetricsData) :
    ∀ q ∈ groupByMethod l, q.2 ≠ ([] : List (Nat × Nat)) :=
  values_foldl_pushDatapoint_ne_nil l [] (by intro q hq; cases hq)

theorem methodRecords_isEmpty_false_iff (l : List MetricsData) (m : String) :
    (methodRecords l m).isEmpty = false ↔ m ∈ l.map MetricsData.method_name := by
  simp only [methodRecords, List.isEmpty_eq_false, ne_eq, List.map_eq_nil_iff,
    List.filter_eq_nil_iff, decide_eq_true_eq, List.mem_map, not_forall]
  constructor
  · rintro ⟨d, hd, hne⟩
    exact ⟨d, hd, Classical.not_not.mp hne⟩
  · rintro ⟨d, hd, he⟩
    exact ⟨d, hd, fun hne => hne he⟩

/-! ### The spec's incremental reference implementation of the Aggregator -/

/-- Running accumulator of the incremental reference implementation described
in the spec (one per method): max/min, running totals and observation count. -/
structure MethodAcc where
  max_size : Nat
  min_size : Nat
  total_size : Nat
  max_time : Nat
  min_time : Nat
  total_duration : Nat
  count : Nat
deriving DecidableEq

/-- The fresh accumulator created lazily on first observation; the min fields
are seeded at the maximum representable value so the first real observation
always wins. -/
def initAcc : MethodAcc :=
  { max_size := 0, min_size := U64MOD - 1, total_size := 0,
    max_time := 0, min_time := U128MOD - 1, total_duration := 0, count := 0 }

/-- One incremental update: `max = max(max, size)`, `min = min(min, size)`,
`total += size` (wrapping `u64`), symmetrically for the duration (wrapping
`u128`), and increment the observation count. -/
def stepAcc (a : MethodAcc) (size time : Nat) : MethodAcc :=
  { max_size := max a.max_size size
    min_size := min a.min_size size
    total_size := (a.total_size + size) % U64MOD
    max_time := max a.max_time time
    min_time := min a.min_time time
    total_duration := (a.total_duration + time) % U128MOD
    count := a.count + 1 }

/-- Look up (or lazily create) the accumulator for `method_name`, then update
it with the received datapoint. -/
def updateAcc (m : List (String × MethodAcc)) (d : MetricsData) :
    List (String × MethodAcc) :=
  match m with
  | [] => [(d.method_name, stepAcc initAcc d.response_size d.duration)]
  | (k, v) :: rest =>
    if k = d.method_name then (k, stepAcc v d.response_size d.duration) :: rest
    else (k, v) :: updateAcc rest d

/-- End-of-stream finalization: `avg_size = total_size / count`,
`avg_time = total_duration / count` with integer floor division. -/
def finalizeAcc (a : MethodAcc) : MetricsReport :=
  { max_size := a.max_size, min_size := a.min_size,
    max_time := a.max_time, min_time := a.min_time,
    avg_size := a.total_size / a.count, avg_time := a.total_duration / a.count,
    total_duration := a.total_duration, total_size := a.total_size }

/-- The incremental form of the Aggregator, following the spec's words:
update a running accumulator on each received datapoint, finalize every
accumulator at end-of-stream. -/
def incremental_aggregator (l : List MetricsData) : List (String × MetricsReport) :=
  (l.foldl updateAcc []).map (fun p => (p.1, finalizeAcc p.2))

/-- Fold a record list into an accumulator, one incremental step per record. -/
def accOfRecords (a : MethodAcc) (rs : List (Nat × Nat)) : MethodAcc :=
  rs.foldl (fun a r => stepAcc a r.1 r.2) a

/-- Feed newly observed records to the optional accumulator of a method. -/
def optStep (o : Option MethodAcc) (rs : List (Nat × Nat)) : Option MethodAcc :=
  match o with
  | none => if rs.isEmpty then none else some (accOfRecords initAcc rs)
  | some a => some (accOfRecords a rs)

theorem accOfRecords_append (a : MethodAcc) (ys zs : List (Nat × Nat)) :
    accOfRecords a (ys ++ zs) = accOfRecords (accOfRecords a ys) zs := by
  simp [accOfRecords, List.foldl_append]

theorem optStep_nil (o : Option MethodAcc) : optStep o [] = o := by
  cases o <;> simp [optStep, accOfRecords]

theorem optStep_optStep (o : Option MethodAcc) (ys zs : List (Nat × Nat)) :
    optStep (optStep o ys) zs = optStep o (ys ++ zs) := by
  cases o with
  | some a => simp [optStep, accOfRecords_append]
  | none =>
    cases ys with
    | nil => simp [optStep, accOfRecords]
    | cons y ys =>
      have h : accOfRecords initAcc (y :: (ys ++ zs))
          = accOfRecords (accOfRecords initAcc (y :: ys)) zs := by
        rw [← accOfRecords_append]
        rfl
      simp [optStep, h]

theorem lookupMethod_updateAcc (acc : List (String × MethodAcc))
    (d : MetricsData) (m : String) :
    lookupMethod m (updateAcc acc d)
      = if d.method_name = m
        then optStep (lookupMethod m acc) [(d.response_size, d.duration)]
        else lookupMethod m acc := by
  induction acc with
  | nil =>
    by_cases h : d.method_name = m <;>
      simp [updateAcc, lookupMethod, optStep, accOfRecords, h]
  | cons p rest ih =>
    obtain ⟨k, v⟩ := p
    by_cases hk : k = d.method_name
    · by_cases hm : k = m
      · have hdm : d.method_name = m := by rw [← hk]; exact hm
        simp [updateAcc, lookupMethod, optStep, accOfRecords, hk, hm, hdm]
      · have hdm : ¬ d.method_name = m := by rw [← hk]; exact hm
        simp [updateAcc, lookupMethod, optStep, hk, hm, hdm]
    · by_cases hm : k = m
      · have hdm : ¬ d.method_name = m := fun he => hk (hm.trans he.symm)
        have hk' : ¬ m = d.method_name := fun he => hk (hm.trans he)
        simp [updateAcc, lookupMethod, hk, hm, hdm, hk']
      · simp [updateAcc, lookupMethod, hk, hm, ih]

theorem lookupMethod_foldl_updateAcc (l : List MetricsData) :
    ∀ (acc : List (String × MethodAcc)) (m : String),
      lookupMethod m (l.foldl updateAcc acc)
        = optStep (lookupMethod m acc) (methodRecords l m) := by
  induction l with
  | nil =>
    intro acc m
    simp [methodRecords, optStep_nil]
  | cons d t ih =>
    intro acc m
    simp only [List.foldl_cons]
    rw [ih (updateAcc acc d) m, lookupMethod_updateAcc]
    by_cases h : d.method_name = m
    · rw [if_pos h, optStep_optStep]
      congr 1
      simp [methodRecords, List.filter_cons, h]
    · rw [if_neg h]
      congr 1
      simp [methodRecords, List.filter_cons, h]

theorem lookupMethod_incremental_aggregator (l : List MetricsData) (m : String) :
    lookupMethod m (incremental_aggregator l)
      = if (methodRecords l m).isEmpty then none
        else some (finalizeAcc (accOfRecords initAcc (methodRecords l m))) := by
  unfold incremental_aggregator
  rw [lookupMethod_map, lookupMethod_foldl_updateAcc l [] m]
  by_cases he : (methodRecords l m).isEmpty <;> simp [he, lookupMethod, optStep]

theorem accOfRecords_closed (rs : List (Nat × Nat)) :
    ∀ a : MethodAcc, a.total_size < U64MOD → a.total_duration < U128MOD →
      accOfRecords a rs =
        { max_size := (rs.map Prod.fst).foldl max a.max_size
          min_size := (rs.map Prod.fst).foldl min a.min_size
          total_size := (a.total_size + (rs.map Prod.fst).sum) % U64MOD
          max_time := (rs.map Prod.snd).foldl max a.max_time
          min_time := (rs.map Prod.snd).foldl min a.min_time
          total_duration := (a.total_duration + (rs.map Prod.snd).sum) % U128MOD
          count := a.count + rs.length } := by
  induction rs with
  | nil =>
    intro a h1 h2
    simp [accOfRecords, Nat.mod_eq_of_lt h1, Nat.mod_eq_of_lt h2]
  | cons r rs ih =>
    intro a h1 h2
    have hM : (0 : Nat) < U64MOD := by norm_num [U64MOD]
    have hM' : (0 : Nat) < U128MOD := by norm_num [U128MOD]
    simp only [accOfRecords, List.foldl_cons]
    rw [show (rs.foldl (fun a r => stepAcc a r.1 r.2) (stepAcc a r.1 r.2))
          = accOfRecords (stepAcc a r.1 r.2) rs from rfl]
    rw [ih (stepAcc a r.1 r.2) (Nat.mod_lt _ hM) (Nat.mod_lt _ hM')]
    simp [stepAcc, Nat.mod_add_mod, Nat.add_assoc, Nat.add_comm, Nat.add_left_comm]

theorem finalizeAcc_accOfRecords (rs : List (Nat × Nat)) :
    finalizeAcc (accOfRecords initAcc rs) = reportOfRecords rs := by
  rw [accOfRecords_closed rs initAcc (by norm_num [initAcc, U64MOD])
      (by norm_num [initAcc, U128MOD]), reportOfRecords_eq]
  cases rs with
  | nil => simp [finalizeAcc, initAcc]
  | cons r t => simp [finalizeAcc, initAcc]

/-! ### The Reporter (`MetricsReport::pretty_print`), as the table it renders -/

/-- Rust string formatting with a precision, `format!("{:.p$}", s)`: for a
string argument the precision is the maximum number of characters written, so
the string is truncated to at most `p` characters. -/
def formatPrecisionStr (p : Nat) (s : String) : String := s.take p

/-- Modelled from the spec: the human-readable magnitude-scaled rendering of a
byte count, provided by the external `human_bytes` crate, whose code is not
part of this repository's sources.  Below 1 KiB the crate renders the exact
byte count followed by the unit `B` (e.g. `100 B`); larger magnitudes are
scaled (modelled here at whole-KiB granularity; the crate's floating-point
rounding at higher magnitudes is not modelled and no theorem below relies on
it). -/
def human_bytes (n : Nat) : String :=
  if n < 1024 then toString n ++ " B"
  else toString (n / 1024) ++ " KiB"

/-- A size cell of the table:
`Cell::new(&format!("{:.2}", human_bytes(sz as f64)))`. -/
def sizeCell (n : Nat) : String := formatPrecisionStr 2 (human_bytes n)

/-- Left-pad a string with zeroes to the given width. -/
def padZeros (w : Nat) (s : String) : String :=
  String.mk (List.replicate (w - s.length) '0') ++ s

/-- A time cell of the table: `format!("{:.6}", t as f64 / 1_000_000_000.0)`,
nanoseconds rendered as seconds with six decimals.  The source divides in
`f64`; the division is modelled in exact fixed-point arithmetic (agreeing with
the source wherever the `f64` computation is exact). -/
def timeCell (n : Nat) : String :=
  toString (n / 1000000000) ++ "." ++ padZeros 6 (toString (n % 1000000000 / 1000))

/-- The header row `pretty_print` sets on the table. -/
def headerRow : List String :=
  ["Method", "Max Size (KB)", "Min Size (KB)", "Max Time (s)", "Min Time (s)",
   "Avg Time (s)", "Avg Size (KB)", "Total Duration (s)", "Total Size (KB)"]

/-- The row `pretty_print` adds for one method of the Report Set. -/
def reportRow (method : String) (r : MetricsReport) : List String :=
  [method, sizeCell r.max_size, sizeCell r.min_size, timeCell r.max_time,
   timeCell r.min_time, timeCell r.avg_time, sizeCell r.avg_size,
   timeCell r.total_duration, sizeCell r.total_size]

/-- `MetricsReport::pretty_print`, as the cell contents of the table it
renders and prints: the header row followed by one row per method. -/
def pretty_print (reports : List (String × MetricsReport)) : List (List String) :=
  headerRow :: reports.map (fun p => reportRow p.1 p.2)

/-! ### Permutation invariance and per-method statistics -/

theorem perm_isEmpty {α : Type} {u v : List α} (h : u.Perm v) : u.isEmpty = v.isEmpty := by
  cases u with
  | nil =>
    have h2 : v = [] := List.Perm.eq_nil h.symm
    rw [h2]
  | cons a t =>
    cases hv : v with
    | nil =>
      rw [hv] at h
      exact absurd h.eq_nil (by simp)
    | cons b u' => rfl

theorem reportOfRecords_perm {r₁ r₂ : List (Nat × Nat)} (h : r₁.Perm r₂) :
    reportOfRecords r₁ = reportOfRecords r₂ := by
  have hs : (r₁.map Prod.fst).Perm (r₂.map Prod.fst) := h.map Prod.fst
  have ht : (r₁.map Prod.snd).Perm (r₂.map Prod.snd) := h.map Prod.snd
  have hmaxcomm : ∀ x ∈ r₁.map Prod.fst, ∀ y ∈ r₁.map Prod.fst, ∀ z : Nat,
      max (max z x) y = max (max z y) x := fun x _ y _ z => by
    rw [max_assoc, max_comm x y, ← max_assoc]
  have hmincomm : ∀ x ∈ r₁.map Prod.fst, ∀ y ∈ r₁.map Prod.fst, ∀ z : Nat,
      min (min z x) y = min (min z y) x := fun x _ y _ z => by
    rw [min_assoc, min_comm x y, ← min_assoc]
  have hmaxcomm' : ∀ x ∈ r₁.map Prod.snd, ∀ y ∈ r₁.map Prod.snd, ∀ z : Nat,
      max (max z x) y = max (max z y) x := fun x _ y _ z => by
    rw [max_assoc, max_comm x y, ← max_assoc]
  have hmincomm' : ∀ x ∈ r₁.map Prod.snd, ∀ y ∈ r₁.map Prod.snd, ∀ z : Nat,
      min (min z x) y = min (min z y) x := fun x _ y _ z => by
    rw [min_assoc, min_comm x y, ← min_assoc]
  have hemp : r₁.isEmpty = r₂.isEmpty := perm_isEmpty h
  rw [reportOfRecords_eq, reportOfRecords_eq, hemp, h.length_eq,
    hs.foldl_eq' hmaxcomm 0, hs.foldl_eq' hmincomm (U64MOD - 1),
    ht.foldl_eq' hmaxcomm' 0, ht.foldl_eq' hmincomm' (U128MOD - 1),
    hs.sum_eq, ht.sum_eq]

theorem aggregator_lookup_congr {l₁ l₂ : List MetricsData} {m : String}
    (h : (methodRecords l₁ m).Perm (methodRecords l₂ m)) :
    lookupMethod m (metrics_aggregator l₁) = lookupMethod m (metrics_aggregator l₂) := by
  rw [lookupMethod_metrics_aggregator, lookupMethod_metrics_aggregator,
    perm_isEmpty h, reportOfRecords_perm h]

theorem mem_methodSizes {l : List MetricsData} {m : String} {x : Nat}
    (hx : x ∈ methodSizes l m) : ∃ d ∈ l, d.response_size = x := by
  simp only [methodSizes, methodRecords, List.map_map, List.mem_map,
    Function.comp] at hx
  obtain ⟨d, hd, hdx⟩ := hx
  exact ⟨d, List.mem_of_mem_filter hd, hdx⟩

theorem mem_methodTimes {l : List MetricsData} {m : String} {x : Nat}
    (hx : x ∈ methodTimes l m) : ∃ d ∈ l, d.duration = x := by
  simp only [methodTimes, methodRecords, List.map_map, List.mem_map,
    Function.comp] at hx
  obtain ⟨d, hd, hdx⟩ := hx
  exact ⟨d, List.mem_of_mem_filter hd, hdx⟩

theorem reportOfRecords_stats (l : List MetricsData) (m : String)
    (hw : WFStream l) (hne : methodRecords l m ≠ [])
    (hs : (methodSizes l m).sum < U64MOD) (ht : (methodTimes l m).sum < U128MOD) :
    (reportOfRecords (methodRecords l m)).max_size ∈ methodSizes l m
    ∧ (∀ x ∈ methodSizes l m, x ≤ (reportOfRecords (methodRecords l m)).max_size)
    ∧ (reportOfRecords (methodRecords l m)).min_size ∈ methodSizes l m
    ∧ (∀ x ∈ methodSizes l m, (reportOfRecords (methodRecords l m)).min_size ≤ x)
    ∧ (reportOfRecords (methodRecords l m)).total_size = (methodSizes l m).sum
    ∧ (reportOfRecords (methodRecords l m)).avg_size
        = (methodSizes l m).sum / (methodSizes l m).length
    ∧ (reportOfRecords (methodRecords l m)).max_time ∈ methodTimes l m
    ∧ (∀ x ∈ methodTimes l m, x ≤ (reportOfRecords (methodRecords l m)).max_time)
    ∧ (reportOfRecords (methodRecords l m)).min_time ∈ methodTimes l m
    ∧ (∀ x ∈ methodTimes l m, (reportOfRecords (methodRecords l m)).min_time ≤ x)
    ∧ (reportOfRecords (methodRecords l m)).total_duration = (methodTimes l m).sum
    ∧ (reportOfRecords (methodRecords l m)).avg_time
        = (methodTimes l m).sum / (methodTimes l m).length := by
  have hie : (methodRecords l m).isEmpty = false := List.isEmpty_eq_false.mpr hne
  have hsne : methodSizes l m ≠ [] := by
    intro hcon
    exact hne (List.map_eq_nil_iff.mp hcon)
  have htne : methodTimes l m ≠ [] := by
    intro hcon
    exact hne (List.map_eq_nil_iff.mp hcon)
  have hszb : ∀ x ∈ methodSizes l m, x ≤ U64MOD - 1 := by
    intro x hx
    obtain ⟨d, hdl, hdx⟩ := mem_methodSizes hx
    have hb := (hw d hdl).1
    omega
  have htmb : ∀ x ∈ methodTimes l m, x ≤ U128MOD - 1 := by
    intro x hx
    obtain ⟨d, hdl, hdx⟩ := mem_methodTimes hx
    have hb := (hw d hdl).2
    omega
  simp only [reportOfRecords_eq, methodSizes, methodTimes] at *
  refine ⟨?_, ?_, ?_, ?_, ?_, ?_, ?_, ?_, ?_, ?_, ?_, ?_⟩
  · exact foldl_max_zero_mem hsne
  · intro x hx
    exact mem_le_foldl_max _ 0 x hx
  · exact foldl_min_seed_mem hsne hszb
  · intro x hx
    exact foldl_min_le_mem _ _ x hx
  · exact Nat.mod_eq_of_lt hs
  · simp [hie, Nat.mod_eq_of_lt hs, List.length_map]
  · exact foldl_max_zero_mem htne
  · intro x hx
    exact mem_le_foldl_max _ 0 x hx
  · exact foldl_min_seed_mem htne htmb
  · intro x hx
    exact foldl_min_le_mem _ _ x hx
  · exact Nat.mod_eq_of_lt ht
  · simp [hie, Nat.mod_eq_of_lt ht, List.length_map]

/-! ### Concrete streams used as witnesses and counterexamples -/

/-- The spec's example scenario for `get_logs`: sizes 100/300/200 bytes with
durations 1s/3s/2s in nanoseconds. -/
def exampleStream : List MetricsData :=
  [{ method_name := "get_logs", duration := 1000000000, response_size := 100 },
   { method_name := "get_logs", duration := 3000000000, response_size := 300 },
   { method_name := "get_logs", duration := 2000000000, response_size := 200 }]

/-- A stream whose totals overflow the machine integers: two datapoints of
response size `2 ^ 63` (their sum is `2 ^ 64`) and duration `2 ^ 127` (their
sum is `2 ^ 128`). -/
def overflowStream : List MetricsData :=
  [{ method_name := "m", duration := 2 ^ 127, response_size := 2 ^ 63 },
   { method_name := "m", duration := 2 ^ 127, response_size := 2 ^ 63 }]

/-- The report `metrics_aggregator` computes for method `m` of
`overflowStream`. -/
def overflowReport : MetricsReport := reportOfRecords (methodRecords overflowStream "m")

/-- A single datapoint for method `a`. -/
def wa : MetricsData := { method_name := "a", duration := 5, response_size := 10 }

/-- A single datapoint for method `b`. -/
def wb : MetricsData := { method_name := "b", duration := 7, response_size := 20 }

/-! ### The claims -/

/-- C1, as stated, is false: on `overflowStream` the `u64` total wraps, so
`total_size` (which is `0`) differs from the exact sum `2 ^ 64` of the
response sizes. -/
theorem C1_counterexample :
    (lookupMethod "m" (metrics_aggregator overflowStream)).map MetricsReport.total_size
      ≠ some ((methodSizes overflowStream "m").sum) := by decide

/-- C1 (amended): for every non-empty set of datapoints of method `m` whose
size total fits in `u64` and whose duration total fits in `u128`, the report
produced by `metrics_aggregator` for `m` has `max_size`/`min_size` the true
maximum/minimum of the response sizes, `total_size` their exact sum and
`avg_size` the floor-division average, and symmetrically `max_time`,
`min_time`, `total_duration` and `avg_time` over the durations. -/
theorem C1_aggregate_stats (l : List MetricsData) (m : String)
    (hw : WFStream l) (hne : methodRecords l m ≠ [])
    (hs : (methodSizes l m).sum < U64MOD) (ht : (methodTimes l m).sum < U128MOD) :
    ∃ r, lookupMethod m (metrics_aggregator l) = some r
      ∧ r.max_size ∈ methodSizes l m
      ∧ (∀ x ∈ methodSizes l m, x ≤ r.max_size)
      ∧ r.min_size ∈ methodSizes l m
      ∧ (∀ x ∈ methodSizes l m, r.min_size ≤ x)
      ∧ r.total_size = (methodSizes l m).sum
      ∧ r.avg_size = (methodSizes l m).sum / (methodSizes l m).length
      ∧ r.max_time ∈ methodTimes l m
      ∧ (∀ x ∈ methodTimes l m, x ≤ r.max_time)
      ∧ r.min_time ∈ methodTimes l m
      ∧ (∀ x ∈ methodTimes l m, r.min_time ≤ x)
      ∧ r.total_duration = (methodTimes l m).sum
      ∧ r.avg_time = (methodTimes l m).sum / (methodTimes l m).length := by
  have hie : (methodRecords l m).isEmpty = false := List.isEmpty_eq_false.mpr hne
  refine ⟨reportOfRecords (methodRecords l m), ?_, reportOfRecords_stats l m hw hne hs ht⟩
  rw [lookupMethod_metrics_aggregator, hie]
  rfl

/-- C1 witness: the amended claim applied to the spec's example scenario. -/
theorem C1_aggregate_stats_witness :
    ∃ r, lookupMethod "get_logs" (metrics_aggregator exampleStream) = some r
      ∧ r.max_size ∈ methodSizes exampleStream "get_logs"
      ∧ (∀ x ∈ methodSizes exampleStream "get_logs", x ≤ r.max_size)
      ∧ r.min_size ∈ methodSizes exampleStream "get_logs"
      ∧ (∀ x ∈ methodSizes exampleStream "get_logs", r.min_size ≤ x)
      ∧ r.total_size = (methodSizes exampleStream "get_logs").sum
      ∧ r.avg_size = (methodSizes exampleStream "get_logs").sum
          / (methodSizes exampleStream "get_logs").length
      ∧ r.max_time ∈ methodTimes exampleStream "get_logs"
      ∧ (∀ x ∈ methodTimes exampleStream "get_logs", x ≤ r.max_time)
      ∧ r.min_time ∈ methodTimes exampleStream "get_logs"
      ∧ (∀ x ∈ methodTimes exampleStream "get_logs", r.min_time ≤ x)
      ∧ r.total_duration = (methodTimes exampleStream "get_logs").sum
      ∧ r.avg_time = (methodTimes exampleStream "get_logs").sum
          / (methodTimes exampleStream "get_logs").length :=
  C1_aggregate_stats exampleStream "get_logs" (by decide) (by decide) (by decide) (by decide)

/-- C2: feeding any two permutations of a fixed multiset of datapoints through
`metrics_aggregator` yields identical Report Sets: the lookup of every method
agrees, hence the same key set and equal `MetricsReport` values per method. -/
theorem C2_commutativity (l₁ l₂ : List MetricsData) (m : String) (hp : l₁.Perm l₂) :
    lookupMethod m (metrics_aggregator l₁) = lookupMethod m (metrics_aggregator l₂) := by
  apply aggregator_lookup_congr
  exact (hp.filter (fun d => decide (d.method_name = m))).map
    (fun d : MetricsData => (d.response_size, d.duration))

/-- C2 witness: the two orders of a two-datapoint multiset. -/
theorem C2_commutativity_witness :
    ([wa, wb] : List MetricsData).Perm [wb, wa]
    ∧ lookupMethod "a" (metrics_aggregator [wa, wb])
        = lookupMethod "a" (metrics_aggregator [wb, wa]) :=
  ⟨by decide, C2_commutativity [wa, wb] [wb, wa] "a" (by decide)⟩

/-- C3: the key set of the Report Set is exactly the set of method names
observed at least once (lookup succeeds iff the method occurs in the stream),
each distinct method has exactly one entry (the keys are nodup), and the
empty stream yields an empty Report Set. -/
theorem C3_key_set (l : List MetricsData) :
    (∀ m : String,
        (lookupMethod m (metrics_aggregator l)).isSome = true
          ↔ m ∈ l.map MetricsData.method_name)
    ∧ ((metrics_aggregator l).map Prod.fst).Nodup
    ∧ metrics_aggregator ([] : List MetricsData) = [] := by
  refine ⟨?_, ?_, rfl⟩
  · intro m
    rw [lookupMethod_metrics_aggregator, ← methodRecords_isEmpty_false_iff]
    by_cases hie : (methodRecords l m).isEmpty <;> simp [hie]
  · unfold metrics_aggregator
    rw [List.map_map]
    have hcomp : (Prod.fst ∘ fun p : String × List (Nat × Nat) =>
        (p.1, reportOfRecords p.2)) = Prod.fst := rfl
    rw [hcomp]
    exact nodup_keys_groupByMethod l

/-- C5: every record vector in the aggregator's per-method map at
end-of-stream holds at least one datapoint, so the divisors of the averages
are nonzero and the defensive empty-vector branches are unreachable. -/
theorem C5_accumulators_nonempty (l : List MetricsData)
    (p : String × List (Nat × Nat)) (hp : p ∈ groupByMethod l) :
    1 ≤ p.2.length
    ∧ (p.2.map Prod.fst).isEmpty = false
    ∧ (p.2.map Prod.snd).isEmpty = false := by
  have h := groupByMethod_values_ne_nil l p hp
  refine ⟨List.length_pos.mpr h, ?_, ?_⟩
  · simp only [List.isEmpty_eq_false, ne_eq, List.map_eq_nil_iff]
    exact h
  · simp only [List.isEmpty_eq_false, ne_eq, List.map_eq_nil_iff]
    exact h

/-- C5 witness: the singleton stream of one `a` datapoint. -/
theorem C5_accumulators_nonempty_witness :
    ("a", [((10 : Nat), (5 : Nat))]) ∈ groupByMethod [wa]
    ∧ (1 ≤ ([((10 : Nat), (5 : Nat))] : List (Nat × Nat)).length
       ∧ (([((10 : Nat), (5 : Nat))] : List (Nat × Nat)).map Prod.fst).isEmpty = false
       ∧ (([((10 : Nat), (5 : Nat))] : List (Nat × Nat)).map Prod.snd).isEmpty = false) :=
  ⟨by decide, C5_accumulators_nonempty [wa] ("a", [(10, 5)]) (by decide)⟩

/-- C6: if two streams carry the same multiset of datapoints for method `m`
(and differ arbitrarily on other methods), `metrics_aggregator` produces the
same report for `m` in both runs. -/
theorem C6_per_method_isolation (l₁ l₂ : List MetricsData) (m : String)
    (h : (l₁.filter (fun d => decide (d.method_name = m))).Perm
        (l₂.filter (fun d => decide (d.method_name = m)))) :
    lookupMethod m (metrics_aggregator l₁) = lookupMethod m (metrics_aggregator l₂) := by
  apply aggregator_lookup_congr
  exact h.map (fun d : MetricsData => (d.response_size, d.duration))

/-- C6 witness: adding an `a` datapoint does not change the `b` report. -/
theorem C6_per_method_isolation_witness :
    (([wb] : List MetricsData).filter (fun d => decide (d.method_name = "b"))).Perm
        (([wa, wb] : List MetricsData).filter (fun d => decide (d.method_name = "b")))
    ∧ lookupMethod "b" (metrics_aggregator [wb])
        = lookupMethod "b" (metrics_aggregator [wa, wb]) :=
  ⟨by decide, C6_per_method_isolation [wb] [wa, wb] "b" (by decide)⟩

/-- C9: the buffer-then-fold implementation of the source and the incremental
accumulator reference implementation of the spec produce equal Report Sets on
every input stream. -/
theorem C9_buffer_fold_equiv_incremental (l : List MetricsData) (m : String) :
    lookupMethod m (metrics_aggregator l) = lookupMethod m (incremental_aggregator l) := by
  rw [lookupMethod_metrics_aggregator, lookupMethod_incremental_aggregator,
    finalizeAcc_accOfRecords]

/-- C10: the totals are accumulated with wrapping machine addition:
`total_size` is the sum of the method's response sizes reduced modulo `2 ^ 64`
and `total_duration` the sum of its durations reduced modulo `2 ^ 128`. -/
theorem C10_totals_wrap (l : List MetricsData) (m : String) (r : MetricsReport)
    (hr : lookupMethod m (metrics_aggregator l) = some r) :
    r.total_size = (methodSizes l m).sum % 2 ^ 64
    ∧ r.total_duration = (methodTimes l m).sum % 2 ^ 128 := by
  rw [lookupMethod_metrics_aggregator] at hr
  by_cases hie : (methodRecords l m).isEmpty
  · rw [if_pos hie] at hr
    exact Option.noConfusion hr
  · rw [if_neg hie] at hr
    rw [← Option.some.inj hr, reportOfRecords_eq]
    exact ⟨by simp [methodSizes, U64MOD], by simp [methodTimes, U128MOD]⟩

/-- C10 witness: on `overflowStream` both totals wrap to `0`. -/
theorem C10_totals_wrap_witness :
    lookupMethod "m" (metrics_aggregator overflowStream) = some overflowReport
    ∧ (overflowReport.total_size = (methodSizes overflowStream "m").sum % 2 ^ 64
       ∧ overflowReport.total_duration = (methodTimes overflowStream "m").sum % 2 ^ 128) :=
  ⟨by decide, C10_totals_wrap overflowStream "m" overflowReport (by decide)⟩

/-- C4, as stated, is false: on `overflowStream` the wrapped total makes
`avg_size = 0` while `min_size = 2 ^ 63`, violating `min_size ≤ avg_size`. -/
theorem C4_counterexample :
    lookupMethod "m" (metrics_aggregator overflowStream) = some overflowReport
    ∧ ¬ (overflowReport.min_size ≤ overflowReport.avg_size) :=
  ⟨by decide, by decide⟩

/-- C4 (amended): for every method report of `metrics_aggregator` whose size
total fits in `u64` and whose duration total fits in `u128`,
`min_size ≤ avg_size ≤ max_size`, `min_time ≤ avg_time ≤ max_time`,
`total_size` and `total_duration` are the exact sums, and the averages are the
floor divisions of the totals by the datapoint count. -/
theorem C4_report_invariants (l : List MetricsData) (m : String) (r : MetricsReport)
    (hw : WFStream l)
    (hr : lookupMethod m (metrics_aggregator l) = some r)
    (hs : (methodSizes l m).sum < U64MOD) (ht : (methodTimes l m).sum < U128MOD) :
    r.min_size ≤ r.avg_size ∧ r.avg_size ≤ r.max_size
    ∧ r.min_time ≤ r.avg_time ∧ r.avg_time ≤ r.max_time
    ∧ r.total_size = (methodSizes l m).sum
    ∧ r.total_duration = (methodTimes l m).sum
    ∧ r.avg_size = r.total_size / (methodRecords l m).length
    ∧ r.avg_time = r.total_duration / (methodRecords l m).length := by
  rw [lookupMethod_metrics_aggregator] at hr
  by_cases hie : (methodRecords l m).isEmpty
  · rw [if_pos hie] at hr
    exact Option.noConfusion hr
  · rw [if_neg hie] at hr
    have hne : methodRecords l m ≠ [] := by
      intro hcon
      rw [hcon] at hie
      exact hie rfl
    obtain ⟨h1, h2, h3, h4, h5, h6, h7, h8, h9, h10, h11, h12⟩ :=
      reportOfRecords_stats l m hw hne hs ht
    rw [← Option.some.inj hr]
    have hlens : 0 < (methodSizes l m).length := by
      rw [List.length_pos]
      intro hcon
      exact hne (List.map_eq_nil_iff.mp hcon)
    have hlent : 0 < (methodTimes l m).length := by
      rw [List.length_pos]
      intro hcon
      exact hne (List.map_eq_nil_iff.mp hcon)
    refine ⟨?_, ?_, ?_, ?_, h5, h11, ?_, ?_⟩
    · rw [h6, Nat.le_div_iff_mul_le hlens, Nat.mul_comm]
      exact length_mul_le_sum (methodSizes l m) _ h4
    · rw [h6]
      exact Nat.div_le_of_le_mul (sum_le_length_mul (methodSizes l m) _ h2)
    · rw [h12, Nat.le_div_iff_mul_le hlent, Nat.mul_comm]
      exact length_mul_le_sum (methodTimes l m) _ h10
    · rw [h12]
      exact Nat.div_le_of_le_mul (sum_le_length_mul (methodTimes l m) _ h8)
    · rw [h6, h5]
      simp [methodSizes, List.length_map]
    · rw [h12, h11]
      simp [methodTimes, List.length_map]

/-- C4 witness: the amended invariant applied to the spec's example
scenario. -/
theorem C4_report_invariants_witness :
    lookupMethod "get_logs" (metrics_aggregator exampleStream)
        = some (reportOfRecords (methodRecords exampleStream "get_logs"))
    ∧ ((reportOfRecords (methodRecords exampleStream "get_logs")).min_size
          ≤ (reportOfRecords (methodRecords exampleStream "get_logs")).avg_size
       ∧ (reportOfRecords (methodRecords exampleStream "get_logs")).avg_size
          ≤ (reportOfRecords (methodRecords exampleStream "get_logs")).max_size
       ∧ (reportOfRecords (methodRecords exampleStream "get_logs")).min_time
          ≤ (reportOfRecords (methodRecords exampleStream "get_logs")).avg_time
       ∧ (reportOfRecords (methodRecords exampleStream "get_logs")).avg_time
          ≤ (reportOfRecords (methodRecords exampleStream "get_logs")).max_time
       ∧ (reportOfRecords (methodRecords exampleStream "get_logs")).total_size
          = (methodSizes exampleStream "get_logs").sum
       ∧ (reportOfRecords (methodRecords exampleStream "get_logs")).total_duration
          = (methodTimes exampleStream "get_logs").sum
       ∧ (reportOfRecords (methodRecords exampleStream "get_logs")).avg_size
          = (reportOfRecords (methodRecords exampleStream "get_logs")).total_size
            / (methodRecords exampleStream "get_logs").length
       ∧ (reportOfRecords (methodRecords exampleStream "get_logs")).avg_time
          = (reportOfRecords (methodRecords exampleStream "get_logs")).total_duration
            / (methodRecords exampleStream "get_logs").length) :=
  ⟨by decide,
   C4_report_invariants exampleStream "get_logs"
     (reportOfRecords (methodRecords exampleStream "get_logs"))
     (by decide) (by decide) (by decide) (by decide)⟩

/-- C7: the claim is right about the intent but the code truncates.  At a
report whose sizes are all 100 bytes the human-readable rendering is
`100 B`, yet every size cell of the rendered table holds only its first two
characters, `10`: Rust's `format!("{:.2}", s)` on a string `s` truncates to
two characters instead of giving two decimals. -/
theorem C7_size_cells_truncated :
    pretty_print [("get_logs", reportOfRecords [(100, 2000000000)])]
      = [headerRow,
         ["get_logs", "10", "10", "2.000000", "2.000000", "2.000000", "10",
          "2.000000", "10"]]
    ∧ human_bytes 100 = "100 B"
    ∧ sizeCell 100 ≠ human_bytes 100 := by
  refine ⟨by decide, rfl, by decide⟩

/-- C8: rendering the empty Report Set yields the header-only table, whose
header row holds the nine column titles; in this embedding `pretty_print` is a
total function, so no error is possible. -/
theorem C8_empty_report_set_header_only :
    pretty_print [] = [headerRow] ∧ headerRow.length = 9 :=
  ⟨rfl, rfl⟩
